import Mathlib

/-!
Verification of the documentation crawler and extractor of `cargo-copilot`
(`src/main.rs`, plus the `tools/` wrappers).

The embedding models the code that the claims are about:
  * `normalize_rel_path` / path components (main.rs `normalize_rel_path`,
    `std::path` component semantics on the unix target),
  * `process_page` (category-section / definition-list parsing),
  * `extract_symbols` (the BFS crawl with visited set),
  * `extract_docblock` and the overview tool,
  * the symbol-path canonicalization of `cargo_doc_get`.

HTML pages are modelled by the structure the scraper selectors observe:
for each category heading the adjacent `dl.item-table` lists, each a flat
sequence of `dt`/`dd` items, a `dt` carrying its first anchor (text, href).
The HTML-to-markdown converter (`html2md::parse_html`) is an external
collaborator and is passed in as an opaque function `md : String → String`.

String primitives used by the Rust code (`split` on '/', `trim`,
`trim_start_matches('/')`, `ends_with(".html")`, `replace("\\", "/")`)
are re-implemented at character-list level so proofs can reason about
them; Rust `str::trim` trims Unicode whitespace, modelled here on the
ASCII whitespace characters.
-/

/-- ASCII whitespace test, modelling the whitespace class used by
`str::trim` (restricted to ASCII). -/
def isWS (c : Char) : Bool :=
  c == ' ' || c == '\t' || c == '\n' || c == '\r'

/-- `str::trim`: drop trailing whitespace (via reverse), then leading. -/
def trimStr (s : String) : String :=
  ⟨List.dropWhile isWS ((List.dropWhile isWS s.data.reverse).reverse)⟩

/-- `.replace("\\", "/")` from `process_page`: the pattern is the single
character `\`, so the replacement maps characters pointwise. -/
def canonSeps (s : String) : String :=
  ⟨s.data.map (fun c => if c = '\\' then '/' else c)⟩

/-- Does the string start with `/` (absolute path test of `std::path`)? -/
def startsSlash (s : String) : Bool :=
  match s.data with
  | [] => false
  | c :: _ => c == '/'

/-- `trim_start_matches('/')` from `cargo_doc_get`: strip every leading
slash. -/
def dropLeadingSlashes (s : String) : String :=
  ⟨s.data.dropWhile (fun c => c == '/')⟩

/-- Split a character list on `/`, keeping empty pieces; `cur` is the
reversed accumulator of the current piece. -/
def splitAux : List Char → List Char → List String
  | [], cur => [⟨cur.reverse⟩]
  | c :: cs, cur =>
    if c = '/' then ⟨cur.reverse⟩ :: splitAux cs [] else splitAux cs (c :: cur)

/-- Raw `/`-separated pieces of a string (possibly empty pieces). -/
def rawSegs (s : String) : List String := splitAux s.data []

/-- Drop empty pieces (as `Path::components` does for `//` and a trailing
separator). -/
def filterNonempty : List String → List String
  | [] => []
  | x :: rest => if x = "" then filterNonempty rest else x :: filterNonempty rest

/-- The nonempty `/`-separated segments of a path string. -/
def segsOf (s : String) : List String := filterNonempty (rawSegs s)

/-- `std::path::Component` on the unix target (the `Prefix` variant is
Windows-only and cannot occur on the target the server runs on). -/
inductive Component where
  | curDir
  | parentDir
  | rootDir
  | normal (seg : String)
deriving DecidableEq, Repr

/-- Classify one nonempty segment as a component. -/
def classify (seg : String) : Component :=
  if seg = "." then Component.curDir
  else if seg = ".." then Component.parentDir
  else Component.normal seg

/-- Is the component `CurDir`? -/
def isCur : Component → Bool
  | Component.curDir => true
  | _ => false

/-- `Path::components` of a path string: split on `/`, drop empty
segments, classify; `.` segments are normalized away except when they
lead a relative path; a leading `/` yields `RootDir`. -/
def pathComponents (s : String) : List Component :=
  if startsSlash s then
    Component.rootDir :: ((segsOf s).map classify).filter (fun c => !(isCur c))
  else
    match (segsOf s).map classify with
    | Component.curDir :: _ =>
      Component.curDir :: ((segsOf s).map classify).filter (fun c => !(isCur c))
    | _ => ((segsOf s).map classify).filter (fun c => !(isCur c))

/-- A `PathBuf` as the crawler uses it: an absolute flag plus the pushed
segments. -/
structure PathB where
  absolute : Bool
  segs : List String
deriving DecidableEq, Repr

/-- One step of `normalize_rel_path`'s loop over components:
`CurDir` is dropped, `ParentDir` pops the last retained segment
(`PathBuf::pop` is a no-op on an empty buffer), `RootDir` is pushed as
the absolute path `/` (which, for `PathBuf::push`, replaces the buffer),
a normal segment is appended. -/
def normStep (out : PathB) : Component → PathB
  | Component.curDir => out
  | Component.parentDir => { out with segs := out.segs.dropLast }
  | Component.rootDir => { absolute := true, segs := [] }
  | Component.normal seg => { out with segs := out.segs ++ [seg] }

/-- `normalize_rel_path` from main.rs: fold the component list into a
fresh `PathBuf`. -/
def normalize_rel_path (cs : List Component) : PathB :=
  cs.foldl normStep { absolute := false, segs := [] }

/-- Join segments with `/`. -/
def intercalateSlash : List String → String
  | [] => ""
  | [s] => s
  | s :: rest => s ++ "/" ++ intercalateSlash rest

/-- `to_string_lossy` of the rebuilt `PathBuf` on the unix target. -/
def renderPB (p : PathB) : String :=
  if p.absolute then "/" ++ intercalateSlash p.segs else intercalateSlash p.segs

/-- `base_dir.join(href)` (`PathBuf::push`): an absolute `href` replaces
the base.  Only invoked with a nonempty base (see `resolveKey`). -/
def joinPath (base rel : String) : String :=
  if startsSlash rel then rel else base ++ "/" ++ rel

/-- The full path computation of `process_page`: take `href` alone when
the base directory is empty, otherwise join; then `normalize_rel_path`,
render, and canonicalize separators (`to_string_lossy().replace`). -/
def resolveKey (base href : String) : String :=
  let full := if base = "" then href else joinPath base href
  canonSeps (renderPB (normalize_rel_path (pathComponents full)))

/-- Render one component back to text (`Path` display). -/
def renderComponent : Component → String
  | Component.curDir => "."
  | Component.parentDir => ".."
  | Component.rootDir => "/"
  | Component.normal seg => seg

/-- Render a component list back to a path string. -/
def renderComponents (cs : List Component) : String :=
  match cs with
  | Component.rootDir :: rest => "/" ++ intercalateSlash (rest.map renderComponent)
  | cs => intercalateSlash (cs.map renderComponent)

/-- `Path::new(&module_path).parent().unwrap_or(Path::new(""))` from
`extract_symbols`: the path minus its last component. -/
def parentKey (s : String) : String :=
  renderComponents ((pathComponents s).dropLast)

/-- A `dt`/`dd` item inside a `dl.item-table`, as the `"dt, dd"` selector
yields them in document order.  A `dt` carries its first descendant
anchor, when any: the anchor's collected text and its optional `href`
attribute. -/
inductive DlItem where
  | dt (anchor : Option (String × Option String))
  | dd (innerHtml : String)
deriving DecidableEq, Repr

/-- A documentation page as the selectors of main.rs observe it:
`sections` lists, in document order, each `dl.item-table` sitting
directly after an `h2` with the given id (`h2#<id> + dl.item-table`);
`docblocks` lists the inner HTML of each `div.docblock` in document
order. -/
structure Page where
  sections : List (String × List DlItem)
  docblocks : List String
deriving DecidableEq, Repr

/-- All `dl`s matched by `h2#<sid> + dl.item-table`, in document order. -/
def dlsFor : List (String × List DlItem) → String → List (List DlItem)
  | [], _ => []
  | (sid', dl) :: rest, sid =>
    if sid' = sid then dl :: dlsFor rest sid else dlsFor rest sid

/-- A symbol record (`SymbolInfo` in main.rs). -/
structure SymbolInfo where
  symbol_id : String
  symbol_path : String
  symbol_type : String
  symbol_description : Option String
deriving DecidableEq, BEq, Repr

/-- The fixed `(section id, symbol type)` table of `process_page`. -/
def sectionTable : List (String × String) :=
  [("modules", "module"), ("macros", "macro"), ("structs", "struct"),
   ("enums", "enum"), ("functions", "function"), ("types", "type_alias")]

/-- The `while let Some(item) = iter.next()` loop of `process_page` over
one `dl`'s `dt`/`dd` items.  A `dd` not consumed as a description, or a
`dt` without an anchor, is skipped.  For a `dt` with an anchor the code
unconditionally pulls the next item to look for a `dd`: if that next item
is another `dt` it is consumed (and lost) and the description stays
`none`.  Returns the records and, when the section is `modules`, the
links to crawl, both in encounter order. -/
def processItems (md : String → String) (base stype : String) :
    List DlItem → List SymbolInfo × List String
  | [] => ([], [])
  | DlItem.dd _ :: rest => processItems md base stype rest
  | DlItem.dt none :: rest => processItems md base stype rest
  | [DlItem.dt (some a)] =>
    let key := resolveKey base (a.2.getD "")
    ([⟨trimStr a.1, key, stype, none⟩],
     if stype = "module" then [key] else [])
  | DlItem.dt (some a) :: DlItem.dd h :: rest =>
    let key := resolveKey base (a.2.getD "")
    let t := trimStr (md h)
    let descr := if t = "" then none else some t
    let r := processItems md base stype rest
    (⟨trimStr a.1, key, stype, descr⟩ :: r.1,
     if stype = "module" then key :: r.2 else r.2)
  | DlItem.dt (some a) :: DlItem.dt _ :: rest =>
    let key := resolveKey base (a.2.getD "")
    let r := processItems md base stype rest
    (⟨trimStr a.1, key, stype, none⟩ :: r.1,
     if stype = "module" then key :: r.2 else r.2)

/-- Process every `dl` of one category section, concatenating in
document order. -/
def processSection (md : String → String) (p : Page) (base sid stype : String) :
    List SymbolInfo × List String :=
  (dlsFor p.sections sid).foldr
    (fun dl acc =>
      let r := processItems md base stype dl
      (r.1 ++ acc.1, r.2 ++ acc.2))
    ([], [])

/-- `process_page` from main.rs: walk the fixed section table in order,
collecting symbol records and module links. -/
def process_page (md : String → String) (p : Page) (base : String) :
    List SymbolInfo × List String :=
  sectionTable.foldr
    (fun e acc =>
      let r := processSection md p base e.1 e.2
      (r.1 ++ acc.1, r.2 ++ acc.2))
    ([], [])

/-- The on-disk documentation tree under `target/doc/<crate>/`, as the
map from relative path to page read by `read_doc_html_by_rel_path`; a
missing key is a failed read. -/
def lookupDoc (docs : List (String × Page)) (k : String) : Option Page :=
  match docs with
  | [] => none
  | (k', p) :: rest => if k' = k then some p else lookupDoc rest k

/-- The `for module_path in modules` loop of `extract_symbols`: an
already-visited link is skipped; otherwise the page is fetched — on
success it is enqueued with the link's parent directory as base and the
key is marked visited, on failure the link is silently dropped.
Returns the new queue entries (in order) and the updated visited list. -/
def scheduleModules (docs : List (String × Page)) :
    List String → List String → List (Page × String) × List String
  | [], visited => ([], visited)
  | m :: ms, visited =>
    if m ∈ visited then scheduleModules docs ms visited
    else
      match lookupDoc docs m with
      | some p =>
        let r := scheduleModules docs ms (visited ++ [m])
        ((p, parentKey m) :: r.1, r.2)
      | none => scheduleModules docs ms visited

/-- Number of keys in the tree not yet visited (duplicate keys in the
association list counted as stored); the bound that drives the crawl's
termination. -/
def unvisitedCount (docs : List (String × Page)) (v : List String) : Nat :=
  match docs with
  | [] => 0
  | (k, _) :: rest => (if k ∈ v then 0 else 1) + unvisitedCount rest v

/-- The `while let Some(..) = queue.pop_front()` loop of
`extract_symbols`, with explicit fuel: each iteration dequeues one
`(page, base_dir)` pair, appends its records, and schedules its module
links.  `none` means the fuel ran out before the frontier drained. -/
def crawlLoopF (docs : List (String × Page)) (md : String → String) :
    Nat → List (Page × String) → List String → List SymbolInfo →
    Option (List SymbolInfo)
  | 0, _, _, _ => none
  | _ + 1, [], _, acc => some acc
  | n + 1, (page, base) :: rest, v, acc =>
    let pm := process_page md page base
    let sv := scheduleModules docs pm.2 v
    crawlLoopF docs md n (rest ++ sv.1) sv.2 (acc ++ pm.1)

/-- `extract_symbols` from main.rs: seed the queue with the root page and
an empty base directory and an empty visited set, and drain the
frontier.  The fuel `1 + 2 * unvisitedCount docs [] + 1` always
suffices (see the termination theorem), so the default is never
taken. -/
def extract_symbols (docs : List (String × Page)) (md : String → String)
    (root : Page) : List SymbolInfo :=
  (crawlLoopF docs md (1 + 2 * unvisitedCount docs [] + 1)
    [(root, "")] [] []).getD []

/-- `extract_docblock` from main.rs: the inner HTML of the first
`div.docblock`, when any. -/
def extract_docblock (p : Page) : Option String := p.docblocks.head?

/-- The core of `cargo_doc_overview::run` after the page has been read:
a missing docblock is an error, otherwise the region is converted to
markdown and returned verbatim. -/
def overviewOf (md : String → String) (p : Page) : Except String String :=
  match extract_docblock p with
  | some h => Except.ok (md h)
  | none => Except.error "no <div \"docblock\"> found in index.html"

/-- `ends_with(".html")`: the reversed characters of `".html"` lead the
reversed string. -/
def endsWithHtml (s : String) : Bool :=
  List.isPrefixOf ['l', 'm', 't', 'h', '.'] s.data.reverse

/-- The symbol-path canonicalization of `cargo_doc_get::run` (also inline
in `crate_symbol_get`): trim, strip leading slashes, and append `.html`
unless already present. -/
def canonSymbolPath (symbol_path : String) : String :=
  let rel := dropLeadingSlashes (trimStr symbol_path)
  if endsWithHtml rel then rel else rel ++ ".html"


/-- Enlarging the visited set cannot increase the number of unvisited
keys. -/
theorem unvisitedCount_mono (docs : List (String × Page)) (v w : List String)
    (h : ∀ x, x ∈ v → x ∈ w) : unvisitedCount docs w ≤ unvisitedCount docs v := by
  induction docs with
  | nil => simp [unvisitedCount]
  | cons d rest ih =>
    obtain ⟨k, p⟩ := d
    simp only [unvisitedCount]
    have hk : (if k ∈ w then 0 else 1) ≤ (if k ∈ v then 0 else 1) := by
      by_cases hkv : k ∈ v
      · simp [hkv, h k hkv]
      · split <;> omega
    omega

/-- Marking a fetchable, unvisited key visited strictly decreases the
number of unvisited keys. -/
theorem unvisitedCount_insert {docs : List (String × Page)} {m : String} {p : Page}
    (hl : lookupDoc docs m = some p) {v : List String} (hm : m ∉ v) :
    unvisitedCount docs (v ++ [m]) + 1 ≤ unvisitedCount docs v := by
  induction docs with
  | nil => simp [lookupDoc] at hl
  | cons d rest ih =>
    obtain ⟨k, q⟩ := d
    simp only [lookupDoc] at hl
    simp only [unvisitedCount]
    by_cases hk : k = m
    · subst hk
      have h1 : k ∈ v ++ [k] := by simp
      have h2 : unvisitedCount rest (v ++ [k]) ≤ unvisitedCount rest v :=
        unvisitedCount_mono rest v (v ++ [k]) (fun x hx => by simp [hx])
      simp only [h1, if_true, hm, if_false, if_pos h1, if_neg hm]
      omega
    · rw [if_neg hk] at hl
      have hmem : k ∈ v ++ [m] ↔ k ∈ v := by
        simp only [List.mem_append, List.mem_singleton]
        exact ⟨fun hc => hc.elim id (fun he => absurd he hk), Or.inl⟩
      have h3 := ih hl
      by_cases hkv : k ∈ v
      · simp only [if_pos hkv, if_pos (hmem.mpr hkv)]
        omega
      · simp only [if_neg hkv, if_neg (fun hc => hkv (hmem.mp hc))]
        omega

/-- Scheduling one page's module links: the number of new queue entries
plus the remaining unvisited keys never exceeds the previous unvisited
count — every enqueue marks a fresh fetchable key visited. -/
theorem scheduleModules_measure (docs : List (String × Page)) :
    ∀ (ms v : List String),
      unvisitedCount docs (scheduleModules docs ms v).2 +
        ((scheduleModules docs ms v).1).length ≤ unvisitedCount docs v
  | [], v => by simp [scheduleModules]
  | m :: ms, v => by
    simp only [scheduleModules]
    by_cases hv : m ∈ v
    · simp only [if_pos hv]
      exact scheduleModules_measure docs ms v
    · simp only [if_neg hv]
      cases hl : lookupDoc docs m with
      | none => exact scheduleModules_measure docs ms v
      | some p =>
        simp only [List.length_cons]
        have h1 := scheduleModules_measure docs ms (v ++ [m])
        have h2 := unvisitedCount_insert hl hv
        omega

/-- The visited set only grows: the updated set extends the old one. -/
theorem scheduleModules_grows (docs : List (String × Page)) :
    ∀ (ms v : List String), ∃ t, (scheduleModules docs ms v).2 = v ++ t
  | [], v => ⟨[], by simp [scheduleModules]⟩
  | m :: ms, v => by
    simp only [scheduleModules]
    by_cases hv : m ∈ v
    · simp only [if_pos hv]
      exact scheduleModules_grows docs ms v
    · simp only [if_neg hv]
      cases hl : lookupDoc docs m with
      | none => exact scheduleModules_grows docs ms v
      | some p =>
        obtain ⟨t, ht⟩ := scheduleModules_grows docs ms (v ++ [m])
        exact ⟨m :: t, by simp only [ht, List.append_assoc, List.singleton_append]⟩

/-- Every enqueue is accompanied by exactly one visited-set insertion. -/
theorem scheduleModules_enqueues (docs : List (String × Page)) :
    ∀ (ms v : List String),
      ((scheduleModules docs ms v).2).length =
        v.length + ((scheduleModules docs ms v).1).length
  | [], v => by simp [scheduleModules]
  | m :: ms, v => by
    simp only [scheduleModules]
    by_cases hv : m ∈ v
    · simp only [if_pos hv]
      exact scheduleModules_enqueues docs ms v
    · simp only [if_neg hv]
      cases hl : lookupDoc docs m with
      | none => exact scheduleModules_enqueues docs ms v
      | some p =>
        have h1 := scheduleModules_enqueues docs ms (v ++ [m])
        simp only [List.length_append, List.length_singleton] at h1
        simp only [List.length_cons, h1]
        omega

/-- A visited set without duplicates stays duplicate-free: a key is only
inserted after the membership check fails. -/
theorem scheduleModules_nodup (docs : List (String × Page)) :
    ∀ (ms v : List String), v.Nodup → ((scheduleModules docs ms v).2).Nodup
  | [], v, h => by simpa [scheduleModules] using h
  | m :: ms, v, h => by
    simp only [scheduleModules]
    by_cases hv : m ∈ v
    · simp only [if_pos hv]
      exact scheduleModules_nodup docs ms v h
    · simp only [if_neg hv]
      cases hl : lookupDoc docs m with
      | none => exact scheduleModules_nodup docs ms v h
      | some p =>
        refine scheduleModules_nodup docs ms (v ++ [m]) ?_
        rw [List.nodup_append]
        refine ⟨h, List.nodup_singleton m, ?_⟩
        intro a ha hm
        rw [List.mem_singleton] at hm
        exact hv (hm ▸ ha)

/-- Fuel exceeding `queue length + 2 * unvisited keys` always suffices to
drain the frontier. -/
theorem crawlLoopF_total (docs : List (String × Page)) (md : String → String) :
    ∀ (n : Nat) (q : List (Page × String)) (v : List String) (acc : List SymbolInfo),
      q.length + 2 * unvisitedCount docs v < n →
      (crawlLoopF docs md n q v acc).isSome = true := by
  intro n
  induction n with
  | zero => intro q v acc h; omega
  | succ n ih =>
    intro q v acc h
    cases q with
    | nil => simp [crawlLoopF]
    | cons e rest =>
      obtain ⟨page, base⟩ := e
      simp only [crawlLoopF]
      apply ih
      have hm := scheduleModules_measure docs (process_page md page base).2 v
      simp only [List.length_cons] at h
      simp only [List.length_append]
      omega

/-- Claim C4: the crawl terminates on every input tree, including trees
with cyclic or duplicate module links — fuel linear in the number of
distinct unvisited document keys plus the frontier length drains the
frontier; the visited set grows monotonically; and every enqueue of a
page is accompanied by exactly one visited-set insertion of its key. -/
theorem c4_crawl_terminates :
    (∀ (docs : List (String × Page)) (md : String → String)
        (q : List (Page × String)) (v : List String) (acc : List SymbolInfo),
        (crawlLoopF docs md (q.length + 2 * unvisitedCount docs v + 1) q v acc).isSome
          = true) ∧
    (∀ (docs : List (String × Page)) (ms v : List String),
        ∃ t, (scheduleModules docs ms v).2 = v ++ t) ∧
    (∀ (docs : List (String × Page)) (ms v : List String),
        ((scheduleModules docs ms v).2).length =
          v.length + ((scheduleModules docs ms v).1).length) := by
  refine ⟨fun docs md q v acc => ?_, scheduleModules_grows, scheduleModules_enqueues⟩
  exact crawlLoopF_total docs md _ q v acc (by omega)

/-- The identity markdown conversion, used to instantiate the opaque
converter in concrete scenarios. -/
def mdId : String → String := fun s => s

/-- The root page of the end-to-end scenario: one module `net` linking to
`net/index.html` and one function `connect` linking to `connect.html`. -/
def rootPage1 : Page :=
  ⟨[("modules", [DlItem.dt (some ("net", some "net/index.html"))]),
    ("functions", [DlItem.dt (some ("connect", some "connect.html"))])], []⟩

/-- The `net` module page of the end-to-end scenario: one struct
`Listener`. -/
def netPage1 : Page :=
  ⟨[("structs", [DlItem.dt (some ("Listener", some "struct.Listener.html"))])], []⟩

/-- The documentation tree of the end-to-end scenario. -/
def docs1 : List (String × Page) := [("net/index.html", netPage1)]

/-- Expected record for the module `net`. -/
def netRec : SymbolInfo := ⟨"net", "net/index.html", "module", none⟩

/-- Expected record for the function `connect`. -/
def connectRec : SymbolInfo := ⟨"connect", "connect.html", "function", none⟩

/-- Expected record for the struct `Listener`. -/
def listenerRec : SymbolInfo := ⟨"Listener", "net/struct.Listener.html", "struct", none⟩

/-- Claim C1 (counterexample): in the end-to-end scenario the symbol
index is NOT `[connect, net, Listener]` — `process_page` walks the fixed
section table with `modules` before `functions`, so the module record
comes first. -/
theorem c1_counterexample :
    extract_symbols docs1 mdId rootPage1 ≠ [connectRec, netRec, listenerRec] := by
  decide

/-- Claim C1 (amended): for the root page declaring module `net` and
function `connect`, with `net/index.html` declaring struct `Listener`,
the symbol index returns exactly the three records `net` (module,
`net/index.html`), `connect` (function, `connect.html`) and `Listener`
(struct, `net/struct.Listener.html`), in that order — modules precede
functions because sections are emitted in the fixed table order,
regardless of the markdown converter. -/
theorem c1_amended (md : String → String) :
    extract_symbols docs1 md rootPage1 = [netRec, connectRec, listenerRec] := by
  rfl

/-- The `net` page of the cyclic scenario: a module entry `back` whose
link resolves to the root page's own key `index.html`. -/
def netPage3 : Page :=
  ⟨[("modules", [DlItem.dt (some ("back", some "../index.html"))])], []⟩

/-- A tree in which the root page is also reachable by its key
`index.html` (as it is on disk: `target/doc/<crate>/index.html`). -/
def docs3 : List (String × Page) :=
  [("index.html", rootPage1), ("net/index.html", netPage3)]

/-- Expected record for the module `back` on the `net` page. -/
def backRec : SymbolInfo := ⟨"back", "index.html", "module", none⟩

/-- Claim C3 (counterexample): with a module link resolving to the root
page's own key `index.html`, the root page is dequeued and parsed twice —
its records appear twice — because the root is seeded into the queue
without its key ever being marked visited. -/
theorem c3_counterexample :
    extract_symbols docs3 mdId rootPage1 =
      [netRec, connectRec, backRec, netRec, connectRec] ∧
    (extract_symbols docs3 mdId rootPage1).count netRec = 2 := by
  constructor
  · decide
  · decide

/-- Root of the depth-3 cyclic scenario with a non-root parent. -/
def rootPageB : Page :=
  ⟨[("modules", [DlItem.dt (some ("a", some "a/index.html"))]),
    ("functions", [DlItem.dt (some ("r", some "r.html"))])], []⟩

/-- Middle page `a/index.html`, linking down to `a/b/index.html`. -/
def pageA : Page :=
  ⟨[("modules", [DlItem.dt (some ("b", some "b/index.html"))])], []⟩

/-- Leaf page `a/b/index.html`, linking back to itself and to its
parent, plus one struct. -/
def pageB : Page :=
  ⟨[("modules",
     [DlItem.dt (some ("self", some "index.html")), DlItem.dd "x",
      DlItem.dt (some ("up", some "../index.html")), DlItem.dd "y"]),
    ("structs", [DlItem.dt (some ("T", some "struct.T.html"))])], []⟩

/-- The depth-3 cyclic tree. -/
def docsB : List (String × Page) :=
  [("a/index.html", pageA), ("a/b/index.html", pageB)]

/-- Expected records of the depth-3 cyclic scenario. -/
def aModRec : SymbolInfo := ⟨"a", "a/index.html", "module", none⟩

/-- Expected record for the root function `r`. -/
def rFunRec : SymbolInfo := ⟨"r", "r.html", "function", none⟩

/-- Expected record for the module `b`. -/
def bModRec : SymbolInfo := ⟨"b", "a/b/index.html", "module", none⟩

/-- Expected record for the self link of `a/b`. -/
def selfModRec : SymbolInfo := ⟨"self", "a/b/index.html", "module", some "x"⟩

/-- Expected record for the parent link of `a/b`. -/
def upModRec : SymbolInfo := ⟨"up", "a/index.html", "module", some "y"⟩

/-- Expected record for the struct `T`. -/
def tStructRec : SymbolInfo := ⟨"T", "a/b/struct.T.html", "struct", none⟩

/-- Claim C3 (amended): every discovered module link is marked visited
exactly when its page is enqueued, so the visited list only grows and
stays duplicate-free and no module-link key is ever enqueued twice; in a
cyclic tree whose cycle closes on non-root pages (a page linking to
itself and to its non-root parent) every page is parsed exactly once.
Only the root page, which is seeded without marking its key, can be
re-parsed — when some link resolves to the root's own key. -/
theorem c3_amended :
    (∀ (docs : List (String × Page)) (ms v : List String), v.Nodup →
        ((scheduleModules docs ms v).2).Nodup ∧
        ∃ t, (scheduleModules docs ms v).2 = v ++ t) ∧
    extract_symbols docsB mdId rootPageB =
      [aModRec, rFunRec, bModRec, selfModRec, upModRec, tStructRec] := by
  refine ⟨fun docs ms v h => ⟨scheduleModules_nodup docs ms v h,
    scheduleModules_grows docs ms v⟩, ?_⟩
  decide

/-- Witness for the amended claim C3 at a concrete instance. -/
theorem c3_amended_witness :
    List.Nodup ([] : List String) ∧
      (((scheduleModules [] [] []).2).Nodup ∧
        ∃ t, (scheduleModules [] [] []).2 = [] ++ t) :=
  ⟨List.nodup_nil, c3_amended.1 [] [] [] List.nodup_nil⟩

/-- Root page of the partial-failure scenario: three module links, the
middle one dangling. -/
def rootPage7 : Page :=
  ⟨[("modules",
     [DlItem.dt (some ("a", some "a/index.html")), DlItem.dd "da",
      DlItem.dt (some ("bad", some "missing/index.html")), DlItem.dd "db",
      DlItem.dt (some ("c", some "c/index.html"))])], []⟩

/-- Reachable module page `a/index.html`. -/
def pageA7 : Page := ⟨[("functions", [DlItem.dt (some ("fa", some "fa.html"))])], []⟩

/-- Reachable module page `c/index.html`, discovered after the dangling
link. -/
def pageC7 : Page := ⟨[("structs", [DlItem.dt (some ("S", some "struct.S.html"))])], []⟩

/-- Tree of the partial-failure scenario: `missing/index.html` is
absent. -/
def docs7 : List (String × Page) :=
  [("a/index.html", pageA7), ("c/index.html", pageC7)]

/-- Claim C7: a module link whose page cannot be retrieved is silently
dropped — scheduling skips it and leaves the state unchanged — and the
crawl still returns every symbol of every other reachable page,
including pages discovered after the dangling link; the operation
succeeds with a partial list rather than an error. -/
theorem c7_dangling_link_skipped :
    (∀ (docs : List (String × Page)) (m : String) (ms v : List String),
        lookupDoc docs m = none →
        scheduleModules docs (m :: ms) v = scheduleModules docs ms v) ∧
    extract_symbols docs7 mdId rootPage7 =
      [⟨"a", "a/index.html", "module", some "da"⟩,
       ⟨"bad", "missing/index.html", "module", some "db"⟩,
       ⟨"c", "c/index.html", "module", none⟩,
       ⟨"fa", "a/fa.html", "function", none⟩,
       ⟨"S", "c/struct.S.html", "struct", none⟩] := by
  constructor
  · intro docs m ms v h
    simp only [scheduleModules, h]
    split <;> rfl
  · decide

/-- Witness for claim C7 at a concrete instance. -/
theorem c7_dangling_link_skipped_witness :
    lookupDoc [] "k" = none ∧
      scheduleModules [] ["k"] [] = scheduleModules [] [] [] :=
  ⟨rfl, c7_dangling_link_skipped.1 [] "k" [] [] rfl⟩

/-- Is the item a `dt` carrying an anchor? -/
def isLinkedDt : DlItem → Bool
  | DlItem.dt (some _) => true
  | _ => false

/-- Each linked term yields at most one record: the per-`dl` loop never
produces more records than there are `dt` items with anchors. -/
theorem processItems_record_bound (md : String → String) (base stype : String) :
    ∀ items : List DlItem,
      ((processItems md base stype items).1).length ≤
        (items.filter isLinkedDt).length
  | [] => by simp [processItems]
  | DlItem.dd h :: rest => by
    have ih := processItems_record_bound md base stype rest
    simpa [processItems, isLinkedDt] using ih
  | DlItem.dt none :: rest => by
    have ih := processItems_record_bound md base stype rest
    simpa [processItems, isLinkedDt] using ih
  | [DlItem.dt (some a)] => by simp [processItems, isLinkedDt]
  | DlItem.dt (some a) :: DlItem.dd h :: rest => by
    have ih := processItems_record_bound md base stype rest
    simp only [processItems, isLinkedDt, List.filter, List.length_cons]
    omega
  | DlItem.dt (some a) :: DlItem.dt b :: rest => by
    have ih := processItems_record_bound md base stype rest
    cases b <;>
      simp only [processItems, isLinkedDt, List.filter, List.length_cons] <;>
      omega

/-- A `dl` with two consecutive linked terms and no description
elements. -/
def pageC2 : Page :=
  ⟨[("functions",
     [DlItem.dt (some ("a", some "a.html")), DlItem.dt (some ("b", some "b.html"))])], []⟩

/-- The record the first term of `pageC2` produces. -/
def recA2 : SymbolInfo := ⟨"a", "a.html", "function", none⟩

/-- The record the claim expects for the second term of `pageC2`. -/
def recB2 : SymbolInfo := ⟨"b", "b.html", "function", none⟩

/-- Claim C2 (counterexample): a linked term with no description element
that is immediately followed by another term does NOT leave the follower
intact — the description lookahead consumes the second `dt`, so only one
record is produced and the second term's record is missing. -/
theorem c2_counterexample :
    (process_page mdId pageC2 "").1 = [recA2] ∧
      ((process_page mdId pageC2 "").1).contains recB2 = false := by
  constructor
  · decide
  · decide

/-- A `dl` whose linked term is followed by a description element. -/
def pageC2dd : Page :=
  ⟨[("functions", [DlItem.dt (some ("a", some "a.html")), DlItem.dd "d"])], []⟩

/-- A `dl` whose linked term ends the list. -/
def pageC2single : Page :=
  ⟨[("functions", [DlItem.dt (some ("a", some "a.html"))])], []⟩

/-- Claim C2 (amended): a linked term yields exactly one record when it
is followed by a description element or ends the list, and every linked
term yields at most one record; but a linked term without a description
element that is immediately followed by another term consumes that
following term in the description lookahead, so the follower yields no
record. -/
theorem c2_amended :
    (∀ (md : String → String) (base stype : String) (items : List DlItem),
        ((processItems md base stype items).1).length ≤
          (items.filter isLinkedDt).length) ∧
    (process_page mdId pageC2dd "").1 = [⟨"a", "a.html", "function", some "d"⟩] ∧
    (process_page mdId pageC2single "").1 = [recA2] ∧
    (process_page mdId pageC2 "").1 = [recA2] := by
  exact ⟨processItems_record_bound, by decide, by decide, by decide⟩

/-- Claim C6: the concrete normalization equations
`normalize("a/b", "../c") = "a/c"`, `normalize("", "./x/../y") = "y"`,
`normalize("a", "b/c.html") = "a/b/c.html"`, and — universally — a
parent-directory component arriving at an empty retained-segment stack
is a no-op (in particular leading parent segments never fail and never
escape the root). -/
theorem c6_normalization_equations :
    resolveKey "a/b" "../c" = "a/c" ∧
    resolveKey "" "./x/../y" = "y" ∧
    resolveKey "a" "b/c.html" = "a/b/c.html" ∧
    (∀ ab : Bool, normStep ⟨ab, []⟩ Component.parentDir = ⟨ab, []⟩) ∧
    (∀ cs : List Component,
        normalize_rel_path (Component.parentDir :: cs) = normalize_rel_path cs) := by
  exact ⟨by decide, by decide, by decide, fun ab => rfl, fun cs => rfl⟩

/-- Claim C9: the overview operation on a page with no docblock region
returns the not-found error — never a success value — and on a page with
docblock regions it returns the markdown conversion of the first one. -/
theorem c9_overview_not_found (md : String → String) (p : Page) :
    (p.docblocks = [] →
      overviewOf md p = Except.error "no <div \"docblock\"> found in index.html") ∧
    (∀ h t, p.docblocks = h :: t → overviewOf md p = Except.ok (md h)) := by
  constructor
  · intro hnil
    simp [overviewOf, extract_docblock, hnil]
  · intro h t hcons
    simp [overviewOf, extract_docblock, hcons]

/-- Witness for claim C9 at concrete pages. -/
theorem c9_overview_not_found_witness :
    ((Page.mk [] []).docblocks = [] ∧
      overviewOf mdId ⟨[], []⟩ =
        Except.error "no <div \"docblock\"> found in index.html") ∧
    ((Page.mk [] ["d"]).docblocks = ["d"] ∧
      overviewOf mdId ⟨[], ["d"]⟩ = Except.ok "d") :=
  ⟨⟨rfl, (c9_overview_not_found mdId ⟨[], []⟩).1 rfl⟩,
   ⟨rfl, (c9_overview_not_found mdId ⟨[], ["d"]⟩).2 "d" [] rfl⟩⟩

/-- `dropWhile` is idempotent. -/
theorem dropWhile_idem {α : Type} (p : α → Bool) :
    ∀ l : List α, List.dropWhile p (List.dropWhile p l) = List.dropWhile p l
  | [] => rfl
  | a :: l => by
    by_cases h : p a = true
    · rw [List.dropWhile_cons, if_pos h]
      exact dropWhile_idem p l
    · rw [List.dropWhile_cons, if_neg h, List.dropWhile_cons, if_neg h]

/-- The head surviving `dropWhile` fails the predicate. -/
theorem dropWhile_head_false {α : Type} {p : α → Bool} :
    ∀ {l : List α} {a : α} {t : List α}, List.dropWhile p l = a :: t → p a = false := by
  intro l
  induction l with
  | nil => intro a t h; simp [List.dropWhile] at h
  | cons b l ih =>
    intro a t h
    rw [List.dropWhile_cons] at h
    by_cases hb : p b = true
    · rw [if_pos hb] at h
      exact ih h
    · rw [if_neg hb] at h
      cases h
      simpa using hb

/-- `dropWhile` removes an initial block: the original list is that
block followed by the result. -/
theorem dropWhile_suffix_exists {α : Type} (p : α → Bool) :
    ∀ l : List α, ∃ pre, l = pre ++ List.dropWhile p l
  | [] => ⟨[], rfl⟩
  | a :: l => by
    by_cases h : p a = true
    · obtain ⟨pre, hp⟩ := dropWhile_suffix_exists p l
      refine ⟨a :: pre, ?_⟩
      rw [List.dropWhile_cons, if_pos h, List.cons_append]
      exact congrArg (a :: ·) hp
    · exact ⟨[], by rw [List.dropWhile_cons, if_neg h, List.nil_append]⟩

/-- The head of a nonempty left part survives an append. -/
theorem head?_append_left {α : Type} {l₁ : List α} (l₂ : List α) (h : l₁ ≠ []) :
    (l₁ ++ l₂).head? = l₁.head? := by
  cases l₁ with
  | nil => exact absurd rfl h
  | cons a t => rfl

/-- Trimming is idempotent: the result of `trimStr` has no leading and no
trailing whitespace left to remove. -/
theorem trimStr_idem (s : String) : trimStr (trimStr s) = trimStr s := by
  unfold trimStr
  apply congrArg String.mk
  show List.dropWhile isWS
      ((List.dropWhile isWS
        (List.dropWhile isWS
          ((List.dropWhile isWS s.data.reverse).reverse)).reverse).reverse) =
    List.dropWhile isWS ((List.dropWhile isWS s.data.reverse).reverse)
  set u := List.dropWhile isWS s.data.reverse with hu
  set d := List.dropWhile isWS u.reverse with hd
  have hdd : List.dropWhile isWS d = d := by
    rw [hd]
    exact dropWhile_idem isWS u.reverse
  have hdr : List.dropWhile isWS d.reverse = d.reverse := by
    by_cases hnil : d = []
    · rw [hnil]
      simp
    · obtain ⟨pre, hpre⟩ := dropWhile_suffix_exists isWS u.reverse
      rw [← hd] at hpre
      have hune : u = d.reverse ++ pre.reverse := by
        have h2 := congrArg List.reverse hpre
        rw [List.reverse_reverse, List.reverse_append] at h2
        exact h2
      have hdne : d.reverse ≠ [] := by simpa using hnil
      cases hru : d.reverse with
      | nil => exact absurd hru hdne
      | cons c t2 =>
        have hcu : List.dropWhile isWS s.data.reverse = c :: (t2 ++ pre.reverse) := by
          rw [← hu, hune, hru, List.cons_append]
        have hc : isWS c = false := dropWhile_head_false hcu
        rw [List.dropWhile_cons, if_neg (by simp [hc])]
  rw [hdr, List.reverse_reverse, hdd]

/-- Every description attached by the per-`dl` loop is nonempty and
already trimmed: it is `some` of a trimmed, nonempty markdown conversion,
never `some ""` and never whitespace-only. -/
theorem processItems_desc_trimmed (md : String → String) (base stype : String) :
    ∀ (items : List DlItem) (r : SymbolInfo) (s : String),
      r ∈ (processItems md base stype items).1 →
      r.symbol_description = some s → s ≠ "" ∧ trimStr s = s
  | [], r, s => by
    intro hm
    simp [processItems] at hm
  | DlItem.dd h :: rest, r, s => by
    intro hm hdesc
    exact processItems_desc_trimmed md base stype rest r s
      (by simpa only [processItems] using hm) hdesc
  | DlItem.dt none :: rest, r, s => by
    intro hm hdesc
    exact processItems_desc_trimmed md base stype rest r s
      (by simpa only [processItems] using hm) hdesc
  | [DlItem.dt (some a)], r, s => by
    intro hm hdesc
    simp only [processItems, List.mem_singleton] at hm
    rw [hm] at hdesc
    simp at hdesc
  | DlItem.dt (some a) :: DlItem.dd h :: rest, r, s => by
    intro hm hdesc
    simp only [processItems, List.mem_cons] at hm
    cases hm with
    | inl he =>
      rw [he] at hdesc
      by_cases ht : trimStr (md h) = ""
      · simp [ht] at hdesc
      · simp only [ht, if_neg, if_false] at hdesc
        have hs : trimStr (md h) = s := by
          simpa using hdesc
        rw [← hs]
        exact ⟨ht, trimStr_idem (md h)⟩
    | inr hr => exact processItems_desc_trimmed md base stype rest r s hr hdesc
  | DlItem.dt (some a) :: DlItem.dt b :: rest, r, s => by
    intro hm hdesc
    simp only [processItems, List.mem_cons] at hm
    cases hm with
    | inl he =>
      rw [he] at hdesc
      simp at hdesc
    | inr hr => exact processItems_desc_trimmed md base stype rest r s hr hdesc

/-- A record produced for a category section comes from one of its
`dl`s. -/
theorem processSection_mem_aux (md : String → String) (base stype : String) :
    ∀ (dls : List (List DlItem)) (r : SymbolInfo),
      r ∈ (dls.foldr (fun dl acc =>
          let rr := processItems md base stype dl
          (rr.1 ++ acc.1, rr.2 ++ acc.2)) ([], [])).1 →
      ∃ dl, dl ∈ dls ∧ r ∈ (processItems md base stype dl).1
  | [], r => by
    intro hm
    simp at hm
  | dl :: dls, r => by
    intro hm
    simp only [List.foldr_cons] at hm
    rcases List.mem_append.mp hm with h1 | h2
    · exact ⟨dl, List.mem_cons_self dl dls, h1⟩
    · obtain ⟨dl2, hdl2, hr2⟩ := processSection_mem_aux md base stype dls r h2
      exact ⟨dl2, List.mem_cons_of_mem dl hdl2, hr2⟩

/-- A record produced for a page comes from the per-`dl` loop of some
section of the fixed table. -/
theorem process_page_mem_aux (md : String → String) (p : Page) (base : String) :
    ∀ (tbl : List (String × String)) (r : SymbolInfo),
      r ∈ (tbl.foldr (fun e acc =>
          let rr := processSection md p base e.1 e.2
          (rr.1 ++ acc.1, rr.2 ++ acc.2)) ([], [])).1 →
      ∃ e, e ∈ tbl ∧ r ∈ (processSection md p base e.1 e.2).1
  | [], r => by
    intro hm
    simp at hm
  | e :: tbl, r => by
    intro hm
    simp only [List.foldr_cons] at hm
    rcases List.mem_append.mp hm with h1 | h2
    · exact ⟨e, List.mem_cons_self e tbl, h1⟩
    · obtain ⟨e2, he2, hr2⟩ := process_page_mem_aux md p base tbl r h2
      exact ⟨e2, List.mem_cons_of_mem e he2, hr2⟩

/-- Claim C8: a present description element whose markdown conversion is
whitespace-only yields `description = none` — no record of any page ever
carries `some ""` or an untrimmed description — and when the trimmed
conversion is nonempty the description is `some` of exactly that trimmed
markdown. -/
theorem c8_description_trimming :
    (∀ (md : String → String) (base : String) (p : Page) (r : SymbolInfo) (s : String),
        r ∈ (process_page md p base).1 → r.symbol_description = some s →
        s ≠ "" ∧ trimStr s = s) ∧
    (∀ (md : String → String) (base stype : String) (a : String × Option String)
        (h : String) (rest : List DlItem),
        processItems md base stype (DlItem.dt (some a) :: DlItem.dd h :: rest) =
          ((⟨trimStr a.1, resolveKey base (a.2.getD ""), stype,
              if trimStr (md h) = "" then none else some (trimStr (md h))⟩ : SymbolInfo) ::
              (processItems md base stype rest).1,
            if stype = "module"
              then resolveKey base (a.2.getD "") :: (processItems md base stype rest).2
              else (processItems md base stype rest).2)) := by
  constructor
  · intro md base p r s hm hdesc
    obtain ⟨e, _, hsec⟩ := process_page_mem_aux md p base sectionTable r hm
    obtain ⟨dl, _, hitems⟩ := processSection_mem_aux md base e.2 (dlsFor p.sections e.1) r hsec
    exact processItems_desc_trimmed md base e.2 dl r s hitems hdesc
  · intro md base stype a h rest
    rfl

/-- A `dl` with one linked term followed by a description element. -/
def pageC8 : Page :=
  ⟨[("functions", [DlItem.dt (some ("a", some "a.html")), DlItem.dd "x"])], []⟩

/-- The record `pageC8` produces under the identity converter. -/
def recC8 : SymbolInfo := ⟨"a", "a.html", "function", some "x"⟩

/-- Witness for claim C8 at a concrete page and record. -/
theorem c8_description_trimming_witness :
    (recC8 ∈ (process_page mdId pageC8 "").1 ∧
      recC8.symbol_description = some "x") ∧
    ("x" ≠ "" ∧ trimStr "x" = "x") := by
  have hleq : (process_page mdId pageC8 "").1 = [recC8] := by decide
  refine ⟨⟨?_, rfl⟩, c8_description_trimming.1 mdId "" pageC8 recC8 "x" ?_ rfl⟩
  · rw [hleq]
    exact List.mem_singleton_self _
  · rw [hleq]
    exact List.mem_singleton_self _

/-- Appending two strings concatenates their character lists. -/
theorem str_data_append (a b : String) : (a ++ b).data = a.data ++ b.data := by
  cases a
  cases b
  rfl

/-- A list is a `isPrefixOf` of itself followed by anything. -/
theorem isPrefixOf_self_append (l t : List Char) : List.isPrefixOf l (l ++ t) = true := by
  induction l with
  | nil => simp [List.isPrefixOf]
  | cons c cs ih => simp [List.isPrefixOf, ih]

/-- Appending `".html"` makes the suffix test succeed. -/
theorem endsWithHtml_append_html (r : String) : endsWithHtml (r ++ ".html") = true := by
  unfold endsWithHtml
  rw [str_data_append]
  show List.isPrefixOf ['l', 'm', 't', 'h', '.']
    ((r.data ++ ['.', 'h', 't', 'm', 'l']).reverse) = true
  rw [List.reverse_append]
  exact isPrefixOf_self_append ['l', 'm', 't', 'h', '.'] r.data.reverse

/-- Claim C10: the single-symbol retrieval canonicalizes its
`symbol_path` before reading — `macro.foo`, `/macro.foo` and
`macro.foo.html` all map to `macro.foo.html`; the result always ends in
`.html`; and `.html` is appended exactly when the trimmed,
slash-stripped path does not already end in it (the five characters are
added then, nothing otherwise). -/
theorem c10_symbol_path_canonicalization :
    canonSymbolPath "macro.foo" = "macro.foo.html" ∧
    canonSymbolPath "/macro.foo" = "macro.foo.html" ∧
    canonSymbolPath "macro.foo.html" = "macro.foo.html" ∧
    (∀ s, endsWithHtml (canonSymbolPath s) = true) ∧
    (∀ s, endsWithHtml (dropLeadingSlashes (trimStr s)) = true →
        canonSymbolPath s = dropLeadingSlashes (trimStr s)) ∧
    (∀ s, endsWithHtml (dropLeadingSlashes (trimStr s)) = false →
        (canonSymbolPath s).data.length =
          (dropLeadingSlashes (trimStr s)).data.length + 5) := by
  refine ⟨by decide, by decide, by decide, fun s => ?_, fun s h => ?_, fun s h => ?_⟩
  · cases hb : endsWithHtml (dropLeadingSlashes (trimStr s)) with
    | true => simp [canonSymbolPath, hb]
    | false => simp [canonSymbolPath, hb, endsWithHtml_append_html]
  · simp [canonSymbolPath, h]
  · simp [canonSymbolPath, h, str_data_append]

/-- Witness for claim C10 at concrete inputs. -/
theorem c10_symbol_path_canonicalization_witness :
    (endsWithHtml (dropLeadingSlashes (trimStr "a.html")) = true ∧
      canonSymbolPath "a.html" = dropLeadingSlashes (trimStr "a.html")) ∧
    (endsWithHtml (dropLeadingSlashes (trimStr "x")) = false ∧
      (canonSymbolPath "x").data.length =
        (dropLeadingSlashes (trimStr "x")).data.length + 5) :=
  ⟨⟨by decide, c10_symbol_path_canonicalization.2.2.2.2.1 "a.html" (by decide)⟩,
   ⟨by decide, c10_symbol_path_canonicalization.2.2.2.2.2 "x" (by decide)⟩⟩

/-- Rebuilding a string from its characters is the identity. -/
theorem mk_data (s : String) : String.mk s.data = s := rfl

/-- A string with no characters is the empty string. -/
theorem data_eq_empty {s : String} (h : s.data = []) : s = "" := by
  cases s
  cases h
  rfl

/-- Every piece produced by `splitAux` is slash-free when the current
accumulator is. -/
theorem splitAux_no_slash :
    ∀ (cs cur : List Char), '/' ∉ cur →
      ∀ x ∈ splitAux cs cur, '/' ∉ x.data
  | [], cur, hcur => by
    intro x hx
    simp only [splitAux, List.mem_singleton] at hx
    rw [hx]
    simpa using hcur
  | c :: cs, cur, hcur => by
    intro x hx
    by_cases hc : c = '/'
    · rw [splitAux, if_pos hc] at hx
      rcases List.mem_cons.mp hx with h1 | h2
      · rw [h1]
        simpa using hcur
      · exact splitAux_no_slash cs [] (by simp) x h2
    · rw [splitAux, if_neg hc] at hx
      refine splitAux_no_slash cs (c :: cur) ?_ x hx
      intro hmem
      rcases List.mem_cons.mp hmem with h1 | h2
      · exact hc h1.symm
      · exact hcur h2

/-- Every character of every piece of `splitAux` comes from the input or
the accumulator. -/
theorem splitAux_chars :
    ∀ (cs cur : List Char) (x : String), x ∈ splitAux cs cur →
      ∀ c ∈ x.data, c ∈ cs ∨ c ∈ cur
  | [], cur, x => by
    intro hx c hc
    simp only [splitAux, List.mem_singleton] at hx
    rw [hx] at hc
    exact Or.inr (by simpa using hc)
  | d :: cs, cur, x => by
    intro hx c hc
    by_cases hd : d = '/'
    · rw [splitAux, if_pos hd] at hx
      rcases List.mem_cons.mp hx with h1 | h2
      · rw [h1] at hc
        exact Or.inr (by simpa using hc)
      · rcases splitAux_chars cs [] x h2 c hc with h3 | h3
        · exact Or.inl (List.mem_cons_of_mem d h3)
        · simp at h3
    · rw [splitAux, if_neg hd] at hx
      rcases splitAux_chars cs (d :: cur) x hx c hc with h3 | h3
      · exact Or.inl (List.mem_cons_of_mem d h3)
      · rcases List.mem_cons.mp h3 with h4 | h4
        · exact Or.inl (h4 ▸ List.mem_cons_self d cs)
        · exact Or.inr h4

/-- On slash-free input `splitAux` yields a single piece. -/
theorem splitAux_no_slash_eq :
    ∀ (cs cur : List Char), '/' ∉ cs →
      splitAux cs cur = [⟨cur.reverse ++ cs⟩]
  | [], cur, _ => by simp [splitAux]
  | c :: cs, cur, h => by
    have hc : c ≠ '/' := fun he => h (he ▸ List.mem_cons_self c cs)
    rw [splitAux, if_neg hc,
      splitAux_no_slash_eq cs (c :: cur) (fun hm => h (List.mem_cons_of_mem c hm))]
    simp [List.append_assoc]

/-- `splitAux` breaks at the first slash. -/
theorem splitAux_break :
    ∀ (xs cur ys : List Char), '/' ∉ xs →
      splitAux (xs ++ '/' :: ys) cur = ⟨cur.reverse ++ xs⟩ :: splitAux ys []
  | [], cur, ys, _ => by simp [splitAux]
  | c :: xs, cur, ys, h => by
    have hc : c ≠ '/' := fun he => h (he ▸ List.mem_cons_self c xs)
    rw [List.cons_append, splitAux, if_neg hc,
      splitAux_break xs (c :: cur) ys (fun hm => h (List.mem_cons_of_mem c hm))]
    simp [List.append_assoc]

/-- Keeping a nonempty head. -/
theorem filterNonempty_cons_ne {x : String} (hx : x ≠ "") (l : List String) :
    filterNonempty (x :: l) = x :: filterNonempty l := by
  simp only [filterNonempty, if_neg hx]

/-- Members of the filtered list are nonempty members of the original. -/
theorem filterNonempty_mem :
    ∀ (l : List String) (x : String), x ∈ filterNonempty l → x ∈ l ∧ x ≠ ""
  | [], x => by
    intro hx
    simp [filterNonempty] at hx
  | y :: l, x => by
    intro hx
    by_cases hy : y = ""
    · rw [filterNonempty, if_pos hy] at hx
      obtain ⟨h1, h2⟩ := filterNonempty_mem l x hx
      exact ⟨List.mem_cons_of_mem y h1, h2⟩
    · rw [filterNonempty, if_neg hy] at hx
      rcases List.mem_cons.mp hx with h1 | h2
      · exact ⟨h1 ▸ List.mem_cons_self y l, h1 ▸ hy⟩
      · obtain ⟨h3, h4⟩ := filterNonempty_mem l x h2
        exact ⟨List.mem_cons_of_mem y h3, h4⟩

/-- Segments of the slash-join of nonempty slash-free pieces are exactly
the pieces. -/
theorem segsOf_intercalate :
    ∀ segs : List String, (∀ x ∈ segs, x ≠ "" ∧ '/' ∉ x.data) →
      segsOf (intercalateSlash segs) = segs
  | [], _ => rfl
  | [s], h => by
    have hs := h s (List.mem_singleton_self s)
    show filterNonempty (splitAux s.data []) = [s]
    rw [splitAux_no_slash_eq s.data [] hs.2]
    simp only [List.reverse_nil, List.nil_append, mk_data]
    rw [filterNonempty_cons_ne hs.1]
    rfl
  | s :: s2 :: rest, h => by
    have hs := h s (List.mem_cons_self s (s2 :: rest))
    have hdata : (intercalateSlash (s :: s2 :: rest)).data
        = s.data ++ '/' :: (intercalateSlash (s2 :: rest)).data := by
      show ((s ++ "/") ++ intercalateSlash (s2 :: rest)).data = _
      rw [str_data_append, str_data_append]
      simp
    show filterNonempty (splitAux (intercalateSlash (s :: s2 :: rest)).data []) = _
    rw [hdata, splitAux_break s.data [] _ hs.2]
    simp only [List.reverse_nil, List.nil_append, mk_data]
    rw [filterNonempty_cons_ne hs.1]
    have ih := segsOf_intercalate (s2 :: rest)
      (fun x hx => h x (List.mem_cons_of_mem s hx))
    exact congrArg (s :: ·) ih

/-- A segment that is neither `.` nor `..` classifies as a normal
component. -/
theorem classify_eq_normal {s : String} (h1 : s ≠ ".") (h2 : s ≠ "..") :
    classify s = Component.normal s := by
  rw [classify, if_neg h1, if_neg h2]

/-- Only such segments produce normal components, and they carry the
segment itself. -/
theorem classify_normal_inv {s t : String} (h : classify s = Component.normal t) :
    t = s ∧ s ≠ "." ∧ s ≠ ".." := by
  by_cases h1 : s = "."
  · rw [classify, if_pos h1] at h
    cases h
  · by_cases h2 : s = ".."
    · rw [classify, if_neg h1, if_pos h2] at h
      cases h
    · rw [classify, if_neg h1, if_neg h2] at h
      cases h
      exact ⟨rfl, h1, h2⟩

/-- Classifying dot-free segments yields normal components. -/
theorem map_classify_normal :
    ∀ segs : List String, (∀ x ∈ segs, x ≠ "." ∧ x ≠ "..") →
      segs.map classify = segs.map Component.normal
  | [], _ => rfl
  | s :: rest, h => by
    have hs := h s (List.mem_cons_self s rest)
    rw [List.map_cons, List.map_cons, classify_eq_normal hs.1 hs.2,
      map_classify_normal rest (fun x hx => h x (List.mem_cons_of_mem s hx))]

/-- Normal components survive the current-directory filter. -/
theorem filter_not_isCur_normals :
    ∀ segs : List String,
      (segs.map Component.normal).filter (fun c => !(isCur c)) =
        segs.map Component.normal
  | [] => rfl
  | s :: rest => by
    show Component.normal s ::
        (List.map Component.normal rest).filter (fun c => !(isCur c)) =
      Component.normal s :: List.map Component.normal rest
    rw [filter_not_isCur_normals rest]

/-- A normal payload of `pathComponents` is one of the path's segments,
and is neither `.` nor `..`. -/
theorem pathComponents_normal_mem {s t : String}
    (h : Component.normal t ∈ pathComponents s) :
    t ∈ segsOf s ∧ t ≠ "." ∧ t ≠ ".." := by
  have hmap : Component.normal t ∈ (segsOf s).map classify := by
    rw [pathComponents] at h
    by_cases hs : startsSlash s = true
    · rw [if_pos hs] at h
      rcases List.mem_cons.mp h with h1 | h2
      · cases h1
      · exact List.mem_of_mem_filter h2
    · rw [if_neg hs] at h
      split at h
      · rcases List.mem_cons.mp h with h1 | h2
        · cases h1
        · exact List.mem_of_mem_filter h2
      · exact List.mem_of_mem_filter h
  obtain ⟨x, hx, hcx⟩ := List.mem_map.mp hmap
  obtain ⟨he, h1, h2⟩ := classify_normal_inv hcx
  exact ⟨he ▸ hx, he ▸ h1, he ▸ h2⟩

/-- Folding only normal components appends their segments. -/
theorem foldl_normStep_normals :
    ∀ (segs : List String) (init : PathB),
      (segs.map Component.normal).foldl normStep init =
        ⟨init.absolute, init.segs ++ segs⟩
  | [], init => by
    cases init
    simp
  | s :: rest, init => by
    rw [List.map_cons, List.foldl_cons, foldl_normStep_normals rest]
    simp [normStep, List.append_assoc]

/-- `normalize_rel_path` rebuilds a pure normal-component list as a
relative path. -/
theorem normalize_rel_path_normals (segs : List String) :
    normalize_rel_path (segs.map Component.normal) = ⟨false, segs⟩ := by
  rw [normalize_rel_path, foldl_normStep_normals]
  rfl

/-- `normalize_rel_path` rebuilds a root followed by normal components as
an absolute path. -/
theorem normalize_rel_path_root_normals (segs : List String) :
    normalize_rel_path (Component.rootDir :: segs.map Component.normal) =
      ⟨true, segs⟩ := by
  rw [normalize_rel_path, List.foldl_cons]
  have : normStep ⟨false, []⟩ Component.rootDir = ⟨true, []⟩ := rfl
  rw [this, foldl_normStep_normals]
  rfl

/-- Every predicate holding of all normal payloads and of the initial
segments holds of all segments after folding. -/
theorem normalize_segs_pred (Q : String → Prop) :
    ∀ (cs : List Component) (init : PathB),
      (∀ t, Component.normal t ∈ cs → Q t) →
      (∀ t ∈ init.segs, Q t) →
      ∀ t ∈ (cs.foldl normStep init).segs, Q t
  | [], _, _, hinit => hinit
  | c :: cs, init, hcs, hinit => by
    rw [List.foldl_cons]
    have hcs2 : ∀ t, Component.normal t ∈ cs → Q t :=
      fun t ht => hcs t (List.mem_cons_of_mem c ht)
    cases c with
    | curDir => exact normalize_segs_pred Q cs init hcs2 hinit
    | parentDir =>
      refine normalize_segs_pred Q cs _ hcs2 ?_
      intro t ht
      exact hinit t ((List.dropLast_sublist _).subset ht)
    | rootDir =>
      refine normalize_segs_pred Q cs _ hcs2 ?_
      intro t ht
      simp [normStep] at ht
    | normal seg =>
      refine normalize_segs_pred Q cs _ hcs2 ?_
      intro t ht
      rcases List.mem_append.mp ht with h1 | h2
      · exact hinit t h1
      · rw [List.mem_singleton] at h2
        exact h2 ▸ hcs seg (List.mem_cons_self _ _)

/-- A string whose first character is not a slash does not start with a
slash. -/
theorem startsSlash_eq_false_of_ne {s : String} {c : Char} {cs : List Char}
    (hsd : s.data = c :: cs) (hc : (c == '/') = false) : startsSlash s = false := by
  have h1 : s = ⟨c :: cs⟩ := by rw [← mk_data s, hsd]
  rw [h1]
  exact hc

/-- Joining nonempty slash-free segments yields a string not starting
with a slash. -/
theorem startsSlash_inter_false (segs : List String)
    (h : ∀ x ∈ segs, x ≠ "" ∧ '/' ∉ x.data) :
    startsSlash (intercalateSlash segs) = false := by
  cases segs with
  | nil => rfl
  | cons s r =>
    have hs := h s (List.mem_cons_self s r)
    have hd : s.data ≠ [] := fun he => hs.1 (data_eq_empty he)
    cases hsd : s.data with
    | nil => exact absurd hsd hd
    | cons c cs =>
      have hcne : (c == '/') = false := by
        have hne : c ≠ '/' := fun he => hs.2 (by rw [hsd, he]; exact List.mem_cons_self _ _)
        simpa using hne
      cases r with
      | nil => exact startsSlash_eq_false_of_ne hsd hcne
      | cons s2 r2 =>
        have hdata : (intercalateSlash (s :: s2 :: r2)).data
            = c :: (cs ++ '/' :: (intercalateSlash (s2 :: r2)).data) := by
          show ((s ++ "/") ++ intercalateSlash (s2 :: r2)).data = _
          rw [str_data_append, str_data_append, hsd]
          simp
        exact startsSlash_eq_false_of_ne hdata hcne

/-- A prepended slash makes the string start with one. -/
theorem startsSlash_slash_prepend (y : String) : startsSlash ("/" ++ y) = true := by
  have hdata : ("/" ++ y).data = '/' :: y.data := by
    rw [str_data_append]
    rfl
  have h1 : ("/" ++ y) = ⟨'/' :: y.data⟩ := by rw [← mk_data ("/" ++ y), hdata]
  rw [h1]
  rfl

/-- A prepended slash does not change the nonempty segments. -/
theorem segsOf_slash_prepend (y : String) : segsOf ("/" ++ y) = segsOf y := by
  show filterNonempty (splitAux ("/" ++ y).data []) = filterNonempty (splitAux y.data [])
  rw [str_data_append]
  show filterNonempty (splitAux ('/' :: y.data) []) = _
  rw [splitAux, if_pos rfl]
  rfl

/-- Parsing back a rendered relative path of dot-free, slash-free,
nonempty segments recovers exactly its normal components. -/
theorem pathComponents_inter (segs : List String)
    (h : ∀ x ∈ segs, x ≠ "" ∧ x ≠ "." ∧ x ≠ ".." ∧ '/' ∉ x.data) :
    pathComponents (intercalateSlash segs) = segs.map Component.normal := by
  have hss : startsSlash (intercalateSlash segs) = false :=
    startsSlash_inter_false segs (fun x hx => ⟨(h x hx).1, (h x hx).2.2.2⟩)
  have hseg : segsOf (intercalateSlash segs) = segs :=
    segsOf_intercalate segs (fun x hx => ⟨(h x hx).1, (h x hx).2.2.2⟩)
  have hmap : (segsOf (intercalateSlash segs)).map classify = segs.map Component.normal := by
    rw [hseg]
    exact map_classify_normal segs (fun x hx => ⟨(h x hx).2.1, (h x hx).2.2.1⟩)
  rw [pathComponents, if_neg (by simp [hss]), hmap]
  cases hc : segs.map Component.normal with
  | nil => rfl
  | cons c rest =>
    cases segs with
    | nil => cases hc
    | cons s r =>
      rw [List.map_cons] at hc
      cases hc
      rw [← List.map_cons]
      exact filter_not_isCur_normals (s :: r)

/-- Parsing back a rendered absolute path recovers the root plus the
normal components. -/
theorem pathComponents_abs_inter (segs : List String)
    (h : ∀ x ∈ segs, x ≠ "" ∧ x ≠ "." ∧ x ≠ ".." ∧ '/' ∉ x.data) :
    pathComponents ("/" ++ intercalateSlash segs) =
      Component.rootDir :: segs.map Component.normal := by
  have hseg : segsOf ("/" ++ intercalateSlash segs) = segs := by
    rw [segsOf_slash_prepend]
    exact segsOf_intercalate segs (fun x hx => ⟨(h x hx).1, (h x hx).2.2.2⟩)
  rw [pathComponents, if_pos (startsSlash_slash_prepend _), hseg,
    map_classify_normal segs (fun x hx => ⟨(h x hx).2.1, (h x hx).2.2.1⟩),
    filter_not_isCur_normals]

/-- Characters of joined segments are slashes or segment characters. -/
theorem inter_chars :
    ∀ (segs : List String) (c : Char), c ∈ (intercalateSlash segs).data →
      c = '/' ∨ ∃ x, x ∈ segs ∧ c ∈ x.data
  | [], c => by
    intro hc
    simp [intercalateSlash] at hc
  | [s], c => by
    intro hc
    exact Or.inr ⟨s, List.mem_singleton_self s, hc⟩
  | s :: s2 :: rest, c => by
    intro hc
    have hdata : (intercalateSlash (s :: s2 :: rest)).data
        = s.data ++ '/' :: (intercalateSlash (s2 :: rest)).data := by
      show ((s ++ "/") ++ intercalateSlash (s2 :: rest)).data = _
      rw [str_data_append, str_data_append]
      simp
    rw [hdata] at hc
    rcases List.mem_append.mp hc with h1 | h2
    · exact Or.inr ⟨s, List.mem_cons_self s _, h1⟩
    · rcases List.mem_cons.mp h2 with h3 | h4
      · exact Or.inl h3
      · rcases inter_chars (s2 :: rest) c h4 with h5 | ⟨x, hx, hcx⟩
        · exact Or.inl h5
        · exact Or.inr ⟨x, List.mem_cons_of_mem s hx, hcx⟩

/-- Mapping the separator replacement over backslash-free characters is
the identity. -/
theorem map_bs_eq_self :
    ∀ {l : List Char}, '\\' ∉ l →
      l.map (fun c => if c = '\\' then '/' else c) = l
  | [], _ => rfl
  | c :: l, h => by
    have hc : c ≠ '\\' := fun he => h (he ▸ List.mem_cons_self c l)
    have ih := map_bs_eq_self (fun hm => h (List.mem_cons_of_mem c hm))
    rw [List.map_cons]
    rw [if_neg hc]
    rw [ih]

/-- `canonSeps` is the identity on backslash-free strings. -/
theorem canonSeps_id {s : String} (h : '\\' ∉ s.data) : canonSeps s = s := by
  rw [canonSeps, map_bs_eq_self h]

/-- Normal payloads of any path's components are nonempty, dot-free and
slash-free. -/
theorem pathComponents_payload_good (s : String) (t : String)
    (h : Component.normal t ∈ pathComponents s) :
    t ≠ "" ∧ t ≠ "." ∧ t ≠ ".." ∧ '/' ∉ t.data := by
  obtain ⟨hmem, h1, h2⟩ := pathComponents_normal_mem h
  obtain ⟨hraw, hne⟩ := filterNonempty_mem (rawSegs s) t hmem
  have hslash : '/' ∉ t.data := splitAux_no_slash s.data [] (by simp) t hraw
  exact ⟨hne, h1, h2, hslash⟩

/-- Normal payloads of a backslash-free path are backslash-free. -/
theorem pathComponents_payload_bs {s : String} (hbs : '\\' ∉ s.data) {t : String}
    (h : Component.normal t ∈ pathComponents s) : '\\' ∉ t.data := by
  obtain ⟨hmem, _, _⟩ := pathComponents_normal_mem h
  obtain ⟨hraw, _⟩ := filterNonempty_mem (rawSegs s) t hmem
  intro hc
  rcases splitAux_chars s.data [] t hraw '\\' hc with h1 | h1
  · exact hbs h1
  · simp at h1

/-- The segments retained by normalization of a backslash-free path are
nonempty, dot-free, slash-free and backslash-free. -/
theorem normalizeKey_segs_good (s : String) (hbs : '\\' ∉ s.data) :
    ∀ t ∈ (normalize_rel_path (pathComponents s)).segs,
      t ≠ "" ∧ t ≠ "." ∧ t ≠ ".." ∧ '/' ∉ t.data ∧ '\\' ∉ t.data := by
  intro t ht
  refine normalize_segs_pred
    (fun u => u ≠ "" ∧ u ≠ "." ∧ u ≠ ".." ∧ '/' ∉ u.data ∧ '\\' ∉ u.data)
    (pathComponents s) ⟨false, []⟩ ?_ ?_ t ht
  · intro u hu
    obtain ⟨h1, h2, h3, h4⟩ := pathComponents_payload_good s u hu
    exact ⟨h1, h2, h3, h4, pathComponents_payload_bs hbs hu⟩
  · intro u hu
    simp at hu

/-- A rendered path with backslash-free segments is backslash-free. -/
theorem renderPB_no_bs {p : PathB} (h : ∀ t ∈ p.segs, '\\' ∉ t.data) :
    '\\' ∉ (renderPB p).data := by
  intro hc
  rw [renderPB] at hc
  by_cases hab : p.absolute = true
  · rw [if_pos hab, str_data_append] at hc
    rcases List.mem_append.mp hc with h1 | h2
    · exact absurd h1 (by decide)
    · rcases inter_chars p.segs '\\' h2 with h3 | ⟨x, hx, hcx⟩
      · exact absurd h3 (by decide)
      · exact h x hx hcx
  · rw [if_neg hab] at hc
    rcases inter_chars p.segs '\\' hc with h3 | ⟨x, hx, hcx⟩
    · exact absurd h3 (by decide)
    · exact h x hx hcx

/-- Splitting a rendered path recovers its segments. -/
theorem segsOf_renderPB (p : PathB)
    (h : ∀ t ∈ p.segs, t ≠ "" ∧ '/' ∉ t.data) : segsOf (renderPB p) = p.segs := by
  rw [renderPB]
  by_cases hab : p.absolute = true
  · rw [if_pos hab, segsOf_slash_prepend]
    exact segsOf_intercalate p.segs h
  · rw [if_neg hab]
    exact segsOf_intercalate p.segs h

/-- Normalizing a rendered path of good segments recovers the path. -/
theorem normalize_rel_path_round (p : PathB)
    (h : ∀ t ∈ p.segs, t ≠ "" ∧ t ≠ "." ∧ t ≠ ".." ∧ '/' ∉ t.data) :
    normalize_rel_path (pathComponents (renderPB p)) = p := by
  cases p with
  | mk ab segs =>
    cases ab with
    | true =>
      have h2 : pathComponents (renderPB ⟨true, segs⟩) =
          Component.rootDir :: segs.map Component.normal := by
        show pathComponents ("/" ++ intercalateSlash segs) = _
        exact pathComponents_abs_inter segs h
      rw [h2]
      exact normalize_rel_path_root_normals segs
    | false =>
      have h2 : pathComponents (renderPB ⟨false, segs⟩) = segs.map Component.normal := by
        show pathComponents (intercalateSlash segs) = _
        exact pathComponents_inter segs h
      rw [h2]
      exact normalize_rel_path_normals segs

/-- Claim C5 (amended): for every base directory and relative href that
contain no backslash character, the produced document key has no `.`
segment and no `..` segment and contains no backslash (forward slash is
its only separator); and renormalizing the key with an empty base
returns it unchanged.  (Backslash-free inputs are required because the
separator replacement `replace("\\", "/")` can split a single segment
containing a backslash into new `.`/`..` segments; and idempotence
against the SAME nonempty base fails in general, see the
counterexample.) -/
theorem c5_amended (base href : String)
    (hb : '\\' ∉ base.data) (hh : '\\' ∉ href.data) :
    "." ∉ segsOf (resolveKey base href) ∧
    ".." ∉ segsOf (resolveKey base href) ∧
    '\\' ∉ (resolveKey base href).data ∧
    resolveKey "" (resolveKey base href) = resolveKey base href := by
  have hfull : '\\' ∉ (if base = "" then href else joinPath base href).data := by
    by_cases hbase : base = ""
    · rw [if_pos hbase]
      exact hh
    · rw [if_neg hbase, joinPath]
      by_cases habs : startsSlash href = true
      · rw [if_pos habs]
        exact hh
      · rw [if_neg habs]
        intro hc
        rw [str_data_append, str_data_append] at hc
        rcases List.mem_append.mp hc with h1 | h2
        · rcases List.mem_append.mp h1 with h3 | h4
          · exact hb h3
          · exact absurd h4 (by decide)
        · exact hh h2
  set full := if base = "" then href else joinPath base href with hfulldef
  set p := normalize_rel_path (pathComponents full) with hpdef
  have hgood : ∀ t ∈ p.segs,
      t ≠ "" ∧ t ≠ "." ∧ t ≠ ".." ∧ '/' ∉ t.data ∧ '\\' ∉ t.data := by
    rw [hpdef]
    exact normalizeKey_segs_good full hfull
  have hkey : resolveKey base href = renderPB p := by
    show canonSeps (renderPB p) = renderPB p
    exact canonSeps_id (renderPB_no_bs (fun t ht => (hgood t ht).2.2.2.2))
  have hsegs : segsOf (resolveKey base href) = p.segs := by
    rw [hkey]
    exact segsOf_renderPB p (fun t ht => ⟨(hgood t ht).1, (hgood t ht).2.2.2.1⟩)
  refine ⟨?_, ?_, ?_, ?_⟩
  · rw [hsegs]
    intro hc
    exact (hgood "." hc).2.1 rfl
  · rw [hsegs]
    intro hc
    exact (hgood ".." hc).2.2.1 rfl
  · rw [hkey]
    exact renderPB_no_bs (fun t ht => (hgood t ht).2.2.2.2)
  · rw [hkey]
    show canonSeps (renderPB (normalize_rel_path (pathComponents (renderPB p)))) =
      renderPB p
    rw [normalize_rel_path_round p (fun t ht =>
      ⟨(hgood t ht).1, (hgood t ht).2.1, (hgood t ht).2.2.1, (hgood t ht).2.2.2.1⟩)]
    exact canonSeps_id (renderPB_no_bs (fun t ht => (hgood t ht).2.2.2.2))

/-- Claim C5 (counterexample): normalizing an already-canonical key
against the same nonempty base does NOT return it unchanged
(`normalize("a", normalize("a", "b")) = "a/a/b"`); and with a backslash
in the href the produced key can contain a `..` segment, because the
separator replacement happens after resolution. -/
theorem c5_counterexample :
    resolveKey "a" (resolveKey "a" "b") ≠ resolveKey "a" "b" ∧
    ".." ∈ segsOf (resolveKey "" "a\\..") := by
  constructor
  · decide
  · decide

/-- Witness for the amended claim C5 at concrete inputs. -/
theorem c5_amended_witness :
    ('\\' ∉ ("a" : String).data ∧ '\\' ∉ ("b" : String).data) ∧
    ("." ∉ segsOf (resolveKey "a" "b") ∧
      ".." ∉ segsOf (resolveKey "a" "b") ∧
      '\\' ∉ (resolveKey "a" "b").data ∧
      resolveKey "" (resolveKey "a" "b") = resolveKey "a" "b") :=
  ⟨⟨by decide, by decide⟩, c5_amended "a" "b" (by decide) (by decide)⟩
